import Mathlib

/-!
Shallow embedding of the image-viewer core of `src/example/main.py`:
the LRU `ImageCache` (lines 113-153), the `ImagePreloader` (lines 227-260),
and the viewport state manipulated by `main` (lines 354-463).

Python dictionaries are modelled as association lists with unique keys
(insertion erases any previous binding), `collections.deque` as a `List`
whose head is the oldest element, Python `int` as `Int`, and pygame tick
times as `Int` milliseconds.  Python floats (the zoom level) are modelled
as exact rationals; the literal `1.1` becomes `11/10`.
-/

/-- A pygame surface, as far as the cache is concerned: its pixel
dimensions, from which `ImageCache._get_surface_size` computes the
footprint. -/
structure Surface where
  width : Nat
  height : Nat
deriving DecidableEq

/-- `ImageCache._get_surface_size` (main.py line 122):
`width * height * 4` bytes. -/
def get_surface_size (s : Surface) : Nat :=
  s.width * s.height * 4

/-- Lookup in the association list modelling the Python dict
`self.cache`. -/
def lookupKey (k : String) : List (String × Surface) → Option Surface
  | [] => none
  | (k', s) :: rest => if k' = k then some s else lookupKey k rest

/-- Deletion from the dict model (`del self.cache[oldest]`); removes every
binding of `k`, which is the single binding when keys are unique. -/
def eraseKey (k : String) : List (String × Surface) → List (String × Surface)
  | [] => []
  | (k', s) :: rest => if k' = k then eraseKey k rest else (k', s) :: eraseKey k rest

/-- Dict assignment `self.cache[path] = surface`: any previous binding is
replaced. -/
def insertKey (k : String) (s : Surface) (l : List (String × Surface)) :
    List (String × Surface) :=
  eraseKey k l ++ [(k, s)]

/-- Sum of the footprints of all entries currently held. -/
def totalFootprint : List (String × Surface) → Nat
  | [] => 0
  | e :: rest => get_surface_size e.2 + totalFootprint rest

/-- The keys of the cache mapping, in list form. -/
def keysOf (l : List (String × Surface)) : List String :=
  l.map Prod.fst

/-- State of `ImageCache` (main.py lines 113-118): the dict `cache`, the
deque `access_order` (head = least recently used), the byte budget
`max_memory` and the running byte counter `current_memory`. -/
structure ImageCache where
  cache : List (String × Surface)
  access_order : List String
  max_memory : Nat
  current_memory : Int
deriving DecidableEq

/-- `ImageCache.__init__` (main.py lines 114-118):
`max_memory = max_memory_mb * 1024 * 1024`, empty dict and deque. -/
def ImageCache.init (max_memory_mb : Nat) : ImageCache :=
  { cache := [], access_order := [], max_memory := max_memory_mb * 1024 * 1024,
    current_memory := 0 }

/-- `ImageCache.get` (main.py lines 124-129).  On a hit the key is moved
to the back of `access_order` (most recently used) and the surface is
returned; on a miss nothing changes. -/
def ImageCache.get (c : ImageCache) (path : String) : Option Surface × ImageCache :=
  match lookupKey path c.cache with
  | some s => (some s, { c with access_order := (c.access_order.erase path) ++ [path] })
  | none => (none, c)

/-- The eviction loop in `ImageCache.put` (main.py lines 138-143):
`while current_memory + surface_size > max_memory and access_order:`
pop the oldest key from the front; if it is in the dict, subtract its
footprint and delete it. -/
def evictLoop (maxMem sz : Nat) :
    List String → List (String × Surface) → Int →
    List String × List (String × Surface) × Int
  | [], cache, cur => ([], cache, cur)
  | oldest :: rest, cache, cur =>
    if cur + (sz : Int) > (maxMem : Int) then
      match lookupKey oldest cache with
      | some old => evictLoop maxMem sz rest (eraseKey oldest cache)
          (cur - (get_surface_size old : Int))
      | none => evictLoop maxMem sz rest cache cur
    else (oldest :: rest, cache, cur)

/-- The insertion phase of `ImageCache.put` (main.py lines 145-153),
applied to the state left by the eviction loop: if the path is already
cached, remove it from `access_order` and subtract the old footprint;
then store the surface, add its footprint, and append the path at the
most-recently-used end. -/
def putAfterEvict (maxMem sz : Nat) (path : String) (s : Surface)
    (order1 : List String) (cache1 : List (String × Surface)) (cur1 : Int) :
    ImageCache :=
  match lookupKey path cache1 with
  | some old =>
    { cache := insertKey path s cache1
      access_order := (order1.erase path) ++ [path]
      max_memory := maxMem
      current_memory := cur1 - (get_surface_size old : Int) + (sz : Int) }
  | none =>
    { cache := insertKey path s cache1
      access_order := order1 ++ [path]
      max_memory := maxMem
      current_memory := cur1 + (sz : Int) }

/-- `ImageCache.put` (main.py lines 131-153).  A `none` surface returns
immediately (`if not surface: return`); otherwise the eviction loop runs
and the surface is inserted. -/
def ImageCache.put (c : ImageCache) (path : String) (surface : Option Surface) :
    ImageCache :=
  match surface with
  | none => c
  | some s =>
    let r := evictLoop c.max_memory (get_surface_size s) c.access_order c.cache
      c.current_memory
    putAfterEvict c.max_memory (get_surface_size s) path s r.1 r.2.1 r.2.2

/-- The cache invalidation performed when art mode is toggled
(main.py line 439): `cache.cache.clear()` empties only the dict, leaving
`access_order` and `current_memory` untouched. -/
def clearMappingOnly (c : ImageCache) : ImageCache :=
  { c with cache := [] }

/-- A cache operation issued by a client. -/
inductive CacheOp where
  | put (path : String) (surface : Option Surface)
  | get (path : String)
deriving DecidableEq

/-- Apply one operation to the cache state. -/
def applyOp (c : ImageCache) : CacheOp → ImageCache
  | .put p s => c.put p s
  | .get p => (c.get p).2

/-- Run a sequence of operations. -/
def runOps (c : ImageCache) (ops : List CacheOp) : ImageCache :=
  ops.foldl applyOp c

/-- The consistency invariant of `ImageCache`: the byte counter equals
the sum of footprints of the held entries, the dict and the recency
deque hold exactly the same keys, and neither contains duplicates. -/
def CacheInv (c : ImageCache) : Prop :=
  c.current_memory = (totalFootprint c.cache : Int)
  ∧ keysOf c.cache ⊆ c.access_order
  ∧ c.access_order ⊆ keysOf c.cache
  ∧ c.access_order.Nodup
  ∧ (keysOf c.cache).Nodup

instance (c : ImageCache) : Decidable (CacheInv c) := by
  unfold CacheInv; infer_instance

/-- `opWithinBudget B op` says a `put` carries a footprint of at most
`B` (vacuous for `get` and for `put` of `none`). -/
def opWithinBudget (B : Nat) : CacheOp → Prop
  | .put _ (some s) => get_surface_size s ≤ B
  | .put _ none => True
  | .get _ => True

instance (B : Nat) : (op : CacheOp) → Decidable (opWithinBudget B op)
  | .put _ (some _) => inferInstanceAs (Decidable (_ ≤ _))
  | .put _ none => inferInstanceAs (Decidable True)
  | .get _ => inferInstanceAs (Decidable True)

/-- State of `ImagePreloader` (main.py lines 227-230) together with the
cache it populates and bookkeeping for its submitted decode tasks:
`preload_queue` is the Python set of in-flight keys, `running` the
multiset of submitted tasks that have not yet completed, and
`submitted` the append-only log of every task ever submitted. -/
structure PreloadState where
  preload_queue : List String
  cache : ImageCache
  running : List String
  submitted : List String
deriving DecidableEq

/-- Processing of one candidate path inside
`ImagePreloader.preload_images` (main.py lines 247-251):
`if path not in self.preload_queue and not cache.get(path):` add the
path to the queue and submit a decode task.  Note the guard calls
`cache.get`, whose hit path mutates the recency order, and Python's
`and` short-circuits: the `get` runs only when the path is not already
in flight. -/
def processPath (st : PreloadState) (path : String) : PreloadState :=
  if path ∈ st.preload_queue then st
  else
    match st.cache.get path with
    | (some _, c') => { st with cache := c' }
    | (none, c') =>
      { preload_queue := path :: st.preload_queue
        cache := c'
        running := st.running ++ [path]
        submitted := st.submitted ++ [path] }

/-- The neighbor indices computed by `ImagePreloader.preload_images`
(main.py lines 238-244): `(current_index + i) % n` for `i = 1..num_ahead`
and `(current_index - i) % n` for `i = 1..num_behind`, with Python's
nonnegative `%` (Lean's `Int` `%` is `emod`, which agrees for positive
`n`). -/
def preloadIndices (n : Int) (current_index num_ahead num_behind : Nat) : List Int :=
  ((List.range num_ahead).map (fun i => ((current_index : Int) + ((i : Int) + 1)) % n))
  ++ ((List.range num_behind).map (fun i => ((current_index : Int) - ((i : Int) + 1)) % n))

/-- `ImagePreloader.preload_images` (main.py lines 232-251); the default
arguments are `num_ahead = 2`, `num_behind = 1`. -/
def preload_images (st : PreloadState) (images : List String)
    (current_index num_ahead num_behind : Nat) : PreloadState :=
  if images.isEmpty then st
  else
    let idxs := preloadIndices (images.length : Int) current_index num_ahead num_behind
    let paths := idxs.map (fun i => images.getD i.toNat "")
    paths.foldl processPath st

/-- `ImagePreloader._preload_task` (main.py lines 253-260), observed at
its completion: `decoded` is the result of `load_image_to_surface`
(`none` on a decode failure); on success the surface is put in the
cache; in the `finally` block the key is discarded from the queue.  The
task also leaves the `running` multiset. -/
def preloadTaskComplete (st : PreloadState) (path : String)
    (decoded : Option Surface) : PreloadState :=
  let withPut : PreloadState :=
    match decoded with
    | some s => { st with cache := st.cache.put path (some s) }
    | none => st
  { withPut with
    preload_queue := withPut.preload_queue.erase path
    running := withPut.running.erase path }

/-- An observable event of the preload subsystem: a `preload_images`
call from the main loop, or the completion of one background decode
task. -/
inductive PreloadEvent where
  | sched (images : List String) (current_index num_ahead num_behind : Nat)
  | complete (path : String) (decoded : Option Surface)
deriving DecidableEq

/-- Apply one preload event to the state. -/
def applyPreloadEvent (st : PreloadState) : PreloadEvent → PreloadState
  | .sched images idx ahead behind => preload_images st images idx ahead behind
  | .complete p d => preloadTaskComplete st p d

/-- Run a sequence of preload events. -/
def runPreload (st : PreloadState) : List PreloadEvent → PreloadState
  | [] => st
  | e :: rest => runPreload (applyPreloadEvent st e) rest

/-- A sequence of preload events is valid when every completion names a
task that is actually running: the executor only finishes tasks that
were submitted and have not finished yet. -/
def validEvents (st : PreloadState) : List PreloadEvent → Bool
  | [] => true
  | e :: rest =>
    (match e with
     | .complete p _ => decide (p ∈ st.running)
     | .sched _ _ _ _ => true)
    && validEvents (applyPreloadEvent st e) rest

/-- A fresh preloader (`ImagePreloader.__init__`, main.py lines 228-230)
attached to a cache: empty in-flight set, no tasks. -/
def initPreload (c : ImageCache) : PreloadState :=
  { preload_queue := [], cache := c, running := [], submitted := [] }

/-- The viewport state of `main` (main.py lines 366-378): current image
index, zoom (a Python float, modelled as an exact rational), pan
offsets, slideshow flag/delay/timer, art and mosaic flags. -/
structure ViewerState where
  current_index : Nat
  zoom : ℚ
  pan_x : Int
  pan_y : Int
  slideshow_active : Bool
  slideshow_delay : Int
  last_slide_time : Int
  art_mode : Bool
  mosaic_mode : Bool
deriving DecidableEq

/-- The initial viewport state (main.py lines 366-378): index 0,
zoom 1.0, pan (0,0), slideshow off with delay 3000 ms and
`last_slide_time = pygame.time.get_ticks()` (a parameter here), art and
mosaic off. -/
def initViewer (t0 : Int) : ViewerState :=
  { current_index := 0, zoom := 1, pan_x := 0, pan_y := 0,
    slideshow_active := false, slideshow_delay := 3000, last_slide_time := t0,
    art_mode := false, mosaic_mode := false }

/-- The per-frame slideshow check (main.py lines 398-402):
`if slideshow_active:` and `current_time - last_slide_time >
slideshow_delay`, advance `current_index` modulo `n` and stamp the
time.  This block is reached on every frame that renders successfully,
in mosaic mode and out of it. -/
def slideshowTick (st : ViewerState) (current_time : Int) (n : Nat) : ViewerState :=
  if st.slideshow_active ∧ current_time - st.last_slide_time > st.slideshow_delay then
    { st with current_index := (st.current_index + 1) % n,
              last_slide_time := current_time }
  else st

/-- The `K_m` handler (main.py lines 434-436): `mosaic_mode = not
mosaic_mode` and a print; nothing else changes. -/
def toggleMosaicMode (st : ViewerState) : ViewerState :=
  { st with mosaic_mode := !st.mosaic_mode }

/-- The `K_a` handler (main.py lines 437-440): flips `art_mode` and
clears only the cache's dict via `cache.cache.clear()`. -/
def toggleArtMode (st : ViewerState) (c : ImageCache) : ViewerState × ImageCache :=
  ({ st with art_mode := !st.art_mode }, clearMappingOnly c)

/-- The `K_SPACE` handler (main.py lines 441-443): `slideshow_active =
not slideshow_active` and a print; `last_slide_time` is not touched. -/
def toggleSlideshow (st : ViewerState) : ViewerState :=
  { st with slideshow_active := !st.slideshow_active }

/-- The `K_r` handler (main.py lines 417-420): reset zoom and pan. -/
def resetView (st : ViewerState) : ViewerState :=
  { st with zoom := 1, pan_x := 0, pan_y := 0 }

/-- A zoom input event: mouse wheel up (button 4) or down (button 5). -/
inductive ZoomEvent where
  | wheel_up
  | wheel_down
deriving DecidableEq

/-- The mouse-wheel handlers (main.py lines 408-411):
`zoom = min(4.0, zoom * 1.1)` and `zoom = max(0.1, zoom / 1.1)`,
with the float literals as exact rationals. -/
def applyZoomEvent (st : ViewerState) : ZoomEvent → ViewerState
  | .wheel_up => { st with zoom := min 4 (st.zoom * (11/10)) }
  | .wheel_down => { st with zoom := max (1/10) (st.zoom / (11/10)) }

/-- Run a sequence of zoom events. -/
def runZoomEvents (st : ViewerState) (evs : List ZoomEvent) : ViewerState :=
  evs.foldl applyZoomEvent st

/-- A 10 x 10 surface: footprint 10 * 10 * 4 = 400 bytes. -/
def surf400 : Surface := ⟨10, 10⟩

/-- A 16 x 16 surface: footprint 16 * 16 * 4 = 1024 bytes. -/
def surfBig : Surface := ⟨16, 16⟩

/-- An empty cache with a byte budget of 1000, as in the spec's
end-to-end scenario. -/
def cacheB1000 : ImageCache :=
  { cache := [], access_order := [], max_memory := 1000, current_memory := 0 }

/-- The spec's end-to-end scenario: `Put(a)`, `Put(b)`, `Get(a)`,
`Put(c)` with three 400-byte images. -/
def scenarioOps : List CacheOp :=
  [CacheOp.put "a" (some surf400), CacheOp.put "b" (some surf400),
   CacheOp.get "a", CacheOp.put "c" (some surf400)]

/-- A budget-1000 cache holding one 400-byte entry `"b"`. -/
def cacheWithB : ImageCache :=
  { cache := [("b", surf400)], access_order := ["b"], max_memory := 1000,
    current_memory := 400 }

/-- A viewport in mosaic mode with the slideshow active and the last
slide stamped at time 0. -/
def mosaicViewer : ViewerState :=
  { initViewer 0 with slideshow_active := true, mosaic_mode := true }

/-- A viewport zoomed to 2.0 and panned to (5, 3). -/
def zoomedViewer : ViewerState :=
  { initViewer 0 with zoom := 2, pan_x := 5, pan_y := 3 }

/-- Three image paths. -/
def imgs3 : List String := ["a", "b", "c"]

/-- Two identical `preload_images` calls (defaults `num_ahead = 2`,
`num_behind = 1`) issued before any decode completes. -/
def schedTwice : List PreloadEvent :=
  [PreloadEvent.sched imgs3 0 2 1, PreloadEvent.sched imgs3 0 2 1]

/-- The de-duplication invariant of the preloader: every key has at most
one running decode task, a key is running exactly when it is in
`preload_queue`, and the queue (a Python set) has no duplicates. -/
def PreInv (st : PreloadState) : Prop :=
  (∀ p, st.running.count p ≤ 1)
  ∧ (∀ p, p ∈ st.running ↔ p ∈ st.preload_queue)
  ∧ st.preload_queue.Nodup

/-! ### Association-list lemmas -/

lemma lookupKey_isSome_iff (k : String) (l : List (String × Surface)) :
    (lookupKey k l).isSome ↔ k ∈ keysOf l := by
  induction l with
  | nil => simp [lookupKey, keysOf]
  | cons e rest ih =>
    obtain ⟨k', s⟩ := e
    by_cases h : k' = k
    · subst h; simp [lookupKey, keysOf]
    · simp only [lookupKey, if_neg h, keysOf, List.map_cons, List.mem_cons, ih]
      constructor
      · intro hm; exact Or.inr hm
      · rintro (rfl | hm)
        · exact absurd rfl h
        · exact hm

lemma lookupKey_eq_none_iff (k : String) (l : List (String × Surface)) :
    lookupKey k l = none ↔ k ∉ keysOf l := by
  rw [← lookupKey_isSome_iff]
  cases lookupKey k l <;> simp

lemma eraseKey_sublist (k : String) (l : List (String × Surface)) :
    (eraseKey k l).Sublist l := by
  induction l with
  | nil => simp [eraseKey]
  | cons e rest ih =>
    obtain ⟨k', s⟩ := e
    by_cases h : k' = k
    · simp only [eraseKey, if_pos h]
      exact ih.cons _
    · simp only [eraseKey, if_neg h]
      exact ih.cons₂ _

lemma mem_keysOf_eraseKey (k k' : String) (l : List (String × Surface)) :
    k' ∈ keysOf (eraseKey k l) ↔ k' ∈ keysOf l ∧ k' ≠ k := by
  induction l with
  | nil => simp [eraseKey, keysOf]
  | cons e rest ih =>
    obtain ⟨k'', s⟩ := e
    simp only [keysOf] at ih ⊢
    by_cases h : k'' = k
    · have e1 : eraseKey k ((k'', s) :: rest) = eraseKey k rest := by
        simp only [eraseKey, if_pos h]
      rw [e1, ih]
      simp only [List.map_cons, List.mem_cons]
      constructor
      · rintro ⟨hm, hne⟩; exact ⟨Or.inr hm, hne⟩
      · rintro ⟨hm | hm, hne⟩
        · exact absurd (hm.trans h) hne
        · exact ⟨hm, hne⟩
    · have e1 : eraseKey k ((k'', s) :: rest) = (k'', s) :: eraseKey k rest := by
        simp only [eraseKey, if_neg h]
      rw [e1]
      simp only [List.map_cons, List.mem_cons, ih]
      constructor
      · rintro (rfl | ⟨hm, hne⟩)
        · exact ⟨Or.inl rfl, fun hk => h hk⟩
        · exact ⟨Or.inr hm, hne⟩
      · rintro ⟨hm | hm, hne⟩
        · exact Or.inl hm
        · exact Or.inr ⟨hm, hne⟩

lemma eraseKey_of_lookup_none (k : String) (l : List (String × Surface))
    (h : lookupKey k l = none) : eraseKey k l = l := by
  induction l with
  | nil => rfl
  | cons e rest ih =>
    obtain ⟨k', s⟩ := e
    by_cases hk : k' = k
    · subst hk; simp [lookupKey] at h
    · simp only [lookupKey, if_neg hk] at h
      simp [eraseKey, hk, ih h]

lemma lookupKey_eraseKey_self (k : String) (l : List (String × Surface)) :
    lookupKey k (eraseKey k l) = none := by
  rw [lookupKey_eq_none_iff, mem_keysOf_eraseKey]
  simp

lemma totalFootprint_append (l1 l2 : List (String × Surface)) :
    totalFootprint (l1 ++ l2) = totalFootprint l1 + totalFootprint l2 := by
  induction l1 with
  | nil => simp [totalFootprint]
  | cons e rest ih => simp [totalFootprint, ih]; ring

lemma totalFootprint_eraseKey_le (k : String) (l : List (String × Surface)) :
    totalFootprint (eraseKey k l) ≤ totalFootprint l := by
  induction l with
  | nil => simp [eraseKey]
  | cons e rest ih =>
    obtain ⟨k', s⟩ := e
    by_cases h : k' = k
    · simp only [eraseKey, if_pos h, totalFootprint]
      omega
    · simp only [eraseKey, if_neg h, totalFootprint]
      omega

lemma totalFootprint_eraseKey_add (k : String) (s : Surface)
    (l : List (String × Surface)) (hnd : (keysOf l).Nodup)
    (h : lookupKey k l = some s) :
    totalFootprint l = totalFootprint (eraseKey k l) + get_surface_size s := by
  induction l with
  | nil => simp [lookupKey] at h
  | cons e rest ih =>
    obtain ⟨k', t⟩ := e
    have hnd' : (keysOf rest).Nodup := (List.nodup_cons.mp hnd).2
    by_cases hk : k' = k
    · simp only [lookupKey, if_pos hk, Option.some.injEq] at h
      have hnot : k ∉ keysOf rest := hk ▸ (List.nodup_cons.mp hnd).1
      have hnone : lookupKey k rest = none := (lookupKey_eq_none_iff _ _).mpr hnot
      simp only [eraseKey, if_pos hk, eraseKey_of_lookup_none _ _ hnone,
        totalFootprint, h]
      omega
    · simp only [lookupKey, if_neg hk] at h
      simp only [eraseKey, if_neg hk, totalFootprint, ih hnd' h]
      omega

lemma lookupKey_append_left_none (k : String) (l1 l2 : List (String × Surface))
    (h : lookupKey k l1 = none) : lookupKey k (l1 ++ l2) = lookupKey k l2 := by
  induction l1 with
  | nil => rfl
  | cons e rest ih =>
    obtain ⟨k', s⟩ := e
    by_cases hk : k' = k
    · subst hk; simp [lookupKey] at h
    · simp only [lookupKey, if_neg hk] at h
      simp only [List.cons_append, lookupKey, if_neg hk]
      exact ih h

lemma lookupKey_insertKey_self (k : String) (s : Surface)
    (l : List (String × Surface)) : lookupKey k (insertKey k s l) = some s := by
  unfold insertKey
  rw [lookupKey_append_left_none _ _ _ (lookupKey_eraseKey_self k l)]
  simp [lookupKey]

lemma keysOf_append (l1 l2 : List (String × Surface)) :
    keysOf (l1 ++ l2) = keysOf l1 ++ keysOf l2 := by
  simp [keysOf]

lemma keysOf_insertKey (k : String) (s : Surface) (l : List (String × Surface)) :
    keysOf (insertKey k s l) = keysOf (eraseKey k l) ++ [k] := by
  simp [insertKey, keysOf]

lemma keysOf_eraseKey_nodup (k : String) (l : List (String × Surface))
    (h : (keysOf l).Nodup) : (keysOf (eraseKey k l)).Nodup :=
  ((eraseKey_sublist k l).map Prod.fst).nodup h

lemma totalFootprint_insertKey (k : String) (s : Surface)
    (l : List (String × Surface)) :
    totalFootprint (insertKey k s l)
      = totalFootprint (eraseKey k l) + get_surface_size s := by
  simp [insertKey, totalFootprint_append, totalFootprint]

lemma keysOf_eq_nil_iff (l : List (String × Surface)) :
    keysOf l = [] ↔ l = [] := by
  cases l <;> simp [keysOf]

/-! ### Eviction-loop specification -/

lemma evictLoop_spec (maxMem sz : Nat) (order : List String) :
    ∀ (cache : List (String × Surface)) (cur : Int)
      (o2 : List String) (c2 : List (String × Surface)) (m2 : Int),
      evictLoop maxMem sz order cache cur = (o2, c2, m2) →
      cur = (totalFootprint cache : Int) →
      (∀ k, k ∈ keysOf cache ↔ k ∈ order) →
      order.Nodup → (keysOf cache).Nodup →
      m2 = (totalFootprint c2 : Int)
      ∧ (∀ k, k ∈ keysOf c2 ↔ k ∈ o2)
      ∧ o2.Nodup ∧ (keysOf c2).Nodup
      ∧ (∃ n, o2 = List.drop n order)
      ∧ (m2 + (sz : Int) ≤ (maxMem : Int) ∨ o2 = []) := by
  induction order with
  | nil =>
    intro cache cur o2 c2 m2 heq h1 h2 h3 h4
    simp only [evictLoop, Prod.mk.injEq] at heq
    obtain ⟨rfl, rfl, rfl⟩ := heq
    exact ⟨h1, h2, h3, h4, ⟨0, rfl⟩, Or.inr rfl⟩
  | cons oldest rest ih =>
    intro cache cur o2 c2 m2 heq h1 h2 h3 h4
    by_cases hc : cur + (sz : Int) > (maxMem : Int)
    · have hmem : oldest ∈ keysOf cache := (h2 oldest).mpr (List.mem_cons_self _ _)
      have hsome : (lookupKey oldest cache).isSome :=
        (lookupKey_isSome_iff _ _).mpr hmem
      obtain ⟨old, hold⟩ := Option.isSome_iff_exists.mp hsome
      rw [show evictLoop maxMem sz (oldest :: rest) cache cur
          = evictLoop maxMem sz rest (eraseKey oldest cache)
            (cur - (get_surface_size old : Int)) from by
        simp only [evictLoop, if_pos hc, hold]] at heq
      have hnotmem : oldest ∉ rest := (List.nodup_cons.mp h3).1
      have h3' : rest.Nodup := (List.nodup_cons.mp h3).2
      have h4' : (keysOf (eraseKey oldest cache)).Nodup :=
        keysOf_eraseKey_nodup _ _ h4
      have htot : totalFootprint cache
          = totalFootprint (eraseKey oldest cache) + get_surface_size old :=
        totalFootprint_eraseKey_add _ _ _ h4 hold
      have h1' : cur - (get_surface_size old : Int)
          = (totalFootprint (eraseKey oldest cache) : Int) := by
        rw [h1, htot]; push_cast; ring
      have h2' : ∀ k, k ∈ keysOf (eraseKey oldest cache) ↔ k ∈ rest := by
        intro k
        rw [mem_keysOf_eraseKey, h2 k]
        simp only [List.mem_cons]
        constructor
        · rintro ⟨hm | hm, hne⟩
          · exact absurd hm hne
          · exact hm
        · intro hm
          exact ⟨Or.inr hm, fun hk => hnotmem (hk ▸ hm)⟩
      obtain ⟨g1, g2, g3, g4, ⟨n, hn⟩, g6⟩ := ih _ _ _ _ _ heq h1' h2' h3' h4'
      exact ⟨g1, g2, g3, g4, ⟨n + 1, by simpa using hn⟩, g6⟩
    · rw [show evictLoop maxMem sz (oldest :: rest) cache cur
          = (oldest :: rest, cache, cur) from by
        simp only [evictLoop, if_neg hc]] at heq
      simp only [Prod.mk.injEq] at heq
      obtain ⟨rfl, rfl, rfl⟩ := heq
      exact ⟨h1, h2, h3, h4, ⟨0, rfl⟩, Or.inl (not_lt.mp hc)⟩

/-! ### Insertion-phase and field equations -/

lemma putAfterEvict_none (maxMem sz : Nat) (path : String) (s : Surface)
    (o1 : List String) (c1 : List (String × Surface)) (m1 : Int)
    (h : lookupKey path c1 = none) :
    putAfterEvict maxMem sz path s o1 c1 m1 =
      { cache := insertKey path s c1, access_order := o1 ++ [path],
        max_memory := maxMem, current_memory := m1 + (sz : Int) } := by
  simp [putAfterEvict, h]

lemma putAfterEvict_some (maxMem sz : Nat) (path : String) (s old : Surface)
    (o1 : List String) (c1 : List (String × Surface)) (m1 : Int)
    (h : lookupKey path c1 = some old) :
    putAfterEvict maxMem sz path s o1 c1 m1 =
      { cache := insertKey path s c1
        access_order := (o1.erase path) ++ [path]
        max_memory := maxMem
        current_memory := m1 - (get_surface_size old : Int) + (sz : Int) } := by
  simp [putAfterEvict, h]

lemma putAfterEvict_max_memory (maxMem sz : Nat) (path : String) (s : Surface)
    (o1 : List String) (c1 : List (String × Surface)) (m1 : Int) :
    (putAfterEvict maxMem sz path s o1 c1 m1).max_memory = maxMem := by
  unfold putAfterEvict
  cases lookupKey path c1 <;> rfl

lemma get_snd_cache (c : ImageCache) (path : String) :
    (c.get path).2.cache = c.cache := by
  unfold ImageCache.get
  cases lookupKey path c.cache <;> rfl

lemma get_snd_max_memory (c : ImageCache) (path : String) :
    (c.get path).2.max_memory = c.max_memory := by
  unfold ImageCache.get
  cases lookupKey path c.cache <;> rfl

lemma get_snd_current_memory (c : ImageCache) (path : String) :
    (c.get path).2.current_memory = c.current_memory := by
  unfold ImageCache.get
  cases lookupKey path c.cache <;> rfl

lemma put_none (c : ImageCache) (path : String) :
    c.put path none = c := rfl

lemma put_some (c : ImageCache) (path : String) (s : Surface)
    (o1 : List String) (c1 : List (String × Surface)) (m1 : Int)
    (hEv : evictLoop c.max_memory (get_surface_size s) c.access_order c.cache
      c.current_memory = (o1, c1, m1)) :
    c.put path (some s)
      = putAfterEvict c.max_memory (get_surface_size s) path s o1 c1 m1 := by
  simp only [ImageCache.put, hEv]

/-! ### Invariant preservation -/

lemma cacheInv_keys_iff {c : ImageCache} (h : CacheInv c) :
    ∀ k, k ∈ keysOf c.cache ↔ k ∈ c.access_order :=
  fun k => ⟨fun hm => h.2.1 hm, fun hm => h.2.2.1 hm⟩

lemma putAfterEvict_inv (maxMem : Nat) (path : String) (s : Surface)
    (o1 : List String) (c1 : List (String × Surface)) (m1 : Int)
    (h1 : m1 = (totalFootprint c1 : Int))
    (h2 : ∀ k, k ∈ keysOf c1 ↔ k ∈ o1)
    (h3 : o1.Nodup) (h4 : (keysOf c1).Nodup) :
    CacheInv (putAfterEvict maxMem (get_surface_size s) path s o1 c1 m1) := by
  have hkeys : keysOf (insertKey path s c1) = keysOf (eraseKey path c1) ++ [path] :=
    keysOf_insertKey path s c1
  have hkmem : ∀ k, k ∈ keysOf (insertKey path s c1)
      ↔ (k ∈ keysOf c1 ∧ k ≠ path) ∨ k = path := by
    intro k
    rw [hkeys]
    simp [mem_keysOf_eraseKey]
  have hknd : (keysOf (insertKey path s c1)).Nodup := by
    rw [hkeys, List.nodup_append]
    refine ⟨keysOf_eraseKey_nodup _ _ h4, List.nodup_singleton _, ?_⟩
    intro a ha hb
    rw [List.mem_singleton] at hb
    subst hb
    exact ((mem_keysOf_eraseKey _ _ _).mp ha).2 rfl
  cases hold : lookupKey path c1 with
  | some old =>
    rw [putAfterEvict_some _ _ _ _ _ _ _ _ hold]
    have htot : totalFootprint c1
        = totalFootprint (eraseKey path c1) + get_surface_size old :=
      totalFootprint_eraseKey_add _ _ _ h4 hold
    have homem : ∀ k, k ∈ (o1.erase path) ++ [path]
        ↔ (k ∈ o1 ∧ k ≠ path) ∨ k = path := by
      intro k
      simp only [List.mem_append, List.mem_singleton, h3.mem_erase_iff]
      tauto
    refine ⟨?_, ?_, ?_, ?_, ?_⟩
    · show m1 - (get_surface_size old : Int) + (get_surface_size s : Int)
        = (totalFootprint (insertKey path s c1) : Int)
      rw [h1, htot, totalFootprint_insertKey]
      push_cast
      ring
    · intro k hk
      rw [homem]
      rcases (hkmem k).mp hk with ⟨hm, hne⟩ | rfl
      · exact Or.inl ⟨(h2 k).mp hm, hne⟩
      · exact Or.inr rfl
    · intro k hk
      rw [hkmem]
      rcases (homem k).mp hk with ⟨hm, hne⟩ | rfl
      · exact Or.inl ⟨(h2 k).mpr hm, hne⟩
      · exact Or.inr rfl
    · show ((o1.erase path) ++ [path]).Nodup
      rw [List.nodup_append]
      refine ⟨h3.erase _, List.nodup_singleton _, ?_⟩
      intro a ha hb
      rw [List.mem_singleton] at hb
      subst hb
      exact (h3.mem_erase_iff.mp ha).1 rfl
    · exact hknd
  | none =>
    rw [putAfterEvict_none _ _ _ _ _ _ _ hold]
    have hnotk : path ∉ keysOf c1 := (lookupKey_eq_none_iff _ _).mp hold
    have homem : ∀ k, k ∈ o1 ++ [path] ↔ k ∈ o1 ∨ k = path := by
      intro k
      simp [List.mem_append]
    refine ⟨?_, ?_, ?_, ?_, ?_⟩
    · show m1 + (get_surface_size s : Int)
        = (totalFootprint (insertKey path s c1) : Int)
      rw [h1, totalFootprint_insertKey, eraseKey_of_lookup_none _ _ hold]
      push_cast
      ring
    · intro k hk
      rw [homem]
      rcases (hkmem k).mp hk with ⟨hm, _⟩ | rfl
      · exact Or.inl ((h2 k).mp hm)
      · exact Or.inr rfl
    · intro k hk
      rw [hkmem]
      rcases (homem k).mp hk with hm | rfl
      · by_cases hkp : k = path
        · exact Or.inr hkp
        · exact Or.inl ⟨(h2 k).mpr hm, hkp⟩
      · exact Or.inr rfl
    · show (o1 ++ [path]).Nodup
      rw [List.nodup_append]
      refine ⟨h3, List.nodup_singleton _, ?_⟩
      intro a ha hb
      rw [List.mem_singleton] at hb
      exact hnotk ((h2 path).mpr (hb ▸ ha))
    · exact hknd

lemma put_preserves_inv (c : ImageCache) (path : String) (surface : Option Surface)
    (hInv : CacheInv c) : CacheInv (c.put path surface) := by
  cases surface with
  | none => exact hInv
  | some s =>
    rcases hEv : evictLoop c.max_memory (get_surface_size s) c.access_order c.cache
      c.current_memory with ⟨o1, c1, m1⟩
    rw [put_some c path s o1 c1 m1 hEv]
    obtain ⟨g1, g2, g3, g4, _, _⟩ :=
      evictLoop_spec c.max_memory (get_surface_size s) c.access_order c.cache
        c.current_memory o1 c1 m1 hEv hInv.1 (cacheInv_keys_iff hInv)
        hInv.2.2.2.1 hInv.2.2.2.2
    exact putAfterEvict_inv c.max_memory path s o1 c1 m1 g1 g2 g3 g4

lemma get_preserves_inv (c : ImageCache) (path : String)
    (hInv : CacheInv c) : CacheInv (c.get path).2 := by
  cases hl : lookupKey path c.cache with
  | none =>
    have : (c.get path).2 = c := by
      unfold ImageCache.get
      rw [hl]
    rw [this]
    exact hInv
  | some s =>
    have hmem : path ∈ c.access_order :=
      (cacheInv_keys_iff hInv path).mp ((lookupKey_isSome_iff path c.cache).mp
        (by rw [hl]; rfl))
    have hg : (c.get path).2
        = { c with access_order := (c.access_order.erase path) ++ [path] } := by
      unfold ImageCache.get
      rw [hl]
    rw [hg]
    have hnd := hInv.2.2.2.1
    have homem : ∀ k, k ∈ (c.access_order.erase path) ++ [path]
        ↔ k ∈ c.access_order := by
      intro k
      simp only [List.mem_append, List.mem_singleton, hnd.mem_erase_iff]
      constructor
      · rintro (⟨_, hm⟩ | rfl)
        · exact hm
        · exact hmem
      · intro hm
        by_cases hkp : k = path
        · exact Or.inr hkp
        · exact Or.inl ⟨hkp, hm⟩
    refine ⟨hInv.1, ?_, ?_, ?_, hInv.2.2.2.2⟩
    · intro k hk
      exact (homem k).mpr (hInv.2.1 hk)
    · intro k hk
      exact hInv.2.2.1 ((homem k).mp hk)
    · show ((c.access_order.erase path) ++ [path]).Nodup
      rw [List.nodup_append]
      refine ⟨hnd.erase _, List.nodup_singleton _, ?_⟩
      intro a ha hb
      rw [List.mem_singleton] at hb
      subst hb
      exact (hnd.mem_erase_iff.mp ha).1 rfl

/-! ### Budget preservation -/

lemma keysOf_empty_of_order_nil (c1 : List (String × Surface))
    (h2 : ∀ k, k ∈ keysOf c1 ↔ k ∈ ([] : List String)) : c1 = [] := by
  rw [← keysOf_eq_nil_iff]
  rw [List.eq_nil_iff_forall_not_mem]
  intro k hk
  exact absurd ((h2 k).mp hk) (List.not_mem_nil k)

lemma put_total_le (c : ImageCache) (path : String) (s : Surface)
    (hInv : CacheInv c) (hsz : get_surface_size s ≤ c.max_memory) :
    totalFootprint ((c.put path (some s)).cache) ≤ c.max_memory := by
  rcases hEv : evictLoop c.max_memory (get_surface_size s) c.access_order c.cache
    c.current_memory with ⟨o1, c1, m1⟩
  rw [put_some c path s o1 c1 m1 hEv]
  obtain ⟨g1, g2, _, g4, _, g6⟩ :=
    evictLoop_spec c.max_memory (get_surface_size s) c.access_order c.cache
      c.current_memory o1 c1 m1 hEv hInv.1 (cacheInv_keys_iff hInv)
      hInv.2.2.2.1 hInv.2.2.2.2
  rcases g6 with hle | hnil
  · have hc1 : totalFootprint c1 + get_surface_size s ≤ c.max_memory := by
      rw [g1] at hle
      exact_mod_cast hle
    cases hold : lookupKey path c1 with
    | some old =>
      rw [putAfterEvict_some _ _ _ _ _ _ _ _ hold]
      show totalFootprint (insertKey path s c1) ≤ c.max_memory
      rw [totalFootprint_insertKey]
      have := totalFootprint_eraseKey_le path c1
      omega
    | none =>
      rw [putAfterEvict_none _ _ _ _ _ _ _ hold]
      show totalFootprint (insertKey path s c1) ≤ c.max_memory
      rw [totalFootprint_insertKey, eraseKey_of_lookup_none _ _ hold]
      omega
  · subst hnil
    have hc1 : c1 = [] := keysOf_empty_of_order_nil c1 g2
    subst hc1
    rw [putAfterEvict_none c.max_memory (get_surface_size s) path s [] [] m1 rfl]
    show totalFootprint (insertKey path s []) ≤ c.max_memory
    rw [totalFootprint_insertKey]
    simp only [eraseKey, totalFootprint]
    omega

lemma put_max_memory (c : ImageCache) (path : String) (surface : Option Surface) :
    (c.put path surface).max_memory = c.max_memory := by
  cases surface with
  | none => rfl
  | some s =>
    rcases hEv : evictLoop c.max_memory (get_surface_size s) c.access_order c.cache
      c.current_memory with ⟨o1, c1, m1⟩
    rw [put_some c path s o1 c1 m1 hEv]
    exact putAfterEvict_max_memory _ _ _ _ _ _ _

lemma applyOp_max_memory (c : ImageCache) (op : CacheOp) :
    (applyOp c op).max_memory = c.max_memory := by
  cases op with
  | put p s => exact put_max_memory c p s
  | get p => exact get_snd_max_memory c p

lemma applyOp_preserves_inv (c : ImageCache) (op : CacheOp) (hInv : CacheInv c) :
    CacheInv (applyOp c op) := by
  cases op with
  | put p s => exact put_preserves_inv c p s hInv
  | get p => exact get_preserves_inv c p hInv

lemma applyOp_total_le (c : ImageCache) (op : CacheOp) (hInv : CacheInv c)
    (hB : totalFootprint c.cache ≤ c.max_memory)
    (hop : opWithinBudget c.max_memory op) :
    totalFootprint (applyOp c op).cache ≤ c.max_memory := by
  cases op with
  | put p s =>
    cases s with
    | none => exact hB
    | some s' => exact put_total_le c p s' hInv hop
  | get p =>
    show totalFootprint (c.get p).2.cache ≤ c.max_memory
    rw [get_snd_cache]
    exact hB

lemma runOps_inv_budget (ops : List CacheOp) :
    ∀ (c : ImageCache), CacheInv c →
      totalFootprint c.cache ≤ c.max_memory →
      (∀ op ∈ ops, opWithinBudget c.max_memory op) →
      CacheInv (runOps c ops)
      ∧ totalFootprint (runOps c ops).cache ≤ c.max_memory
      ∧ (runOps c ops).max_memory = c.max_memory := by
  induction ops with
  | nil =>
    intro c hInv hB _
    exact ⟨hInv, hB, rfl⟩
  | cons op rest ih =>
    intro c hInv hB hops
    have hop : opWithinBudget c.max_memory op := hops op (List.mem_cons_self _ _)
    have hmax : (applyOp c op).max_memory = c.max_memory := applyOp_max_memory c op
    have hInv' : CacheInv (applyOp c op) := applyOp_preserves_inv c op hInv
    have hB' : totalFootprint (applyOp c op).cache ≤ (applyOp c op).max_memory := by
      rw [hmax]
      exact applyOp_total_le c op hInv hB hop
    have hops' : ∀ o ∈ rest, opWithinBudget (applyOp c op).max_memory o := by
      intro o ho
      rw [hmax]
      exact hops o (List.mem_cons_of_mem _ ho)
    obtain ⟨r1, r2, r3⟩ := ih (applyOp c op) hInv' hB' hops'
    refine ⟨r1, ?_, ?_⟩
    · show totalFootprint (runOps (applyOp c op) rest).cache ≤ c.max_memory
      rw [← hmax]
      exact r2
    · show (runOps (applyOp c op) rest).max_memory = c.max_memory
      rw [r3, hmax]

/-! ### Preloader lemmas -/

lemma processPath_of_mem (st : PreloadState) (p : String)
    (h : p ∈ st.preload_queue) : processPath st p = st := by
  simp [processPath, h]

lemma preloadTaskComplete_running (st : PreloadState) (p : String)
    (d : Option Surface) :
    (preloadTaskComplete st p d).running = st.running.erase p := by
  cases d <;> rfl

lemma preloadTaskComplete_queue (st : PreloadState) (p : String)
    (d : Option Surface) :
    (preloadTaskComplete st p d).preload_queue = st.preload_queue.erase p := by
  cases d <;> rfl

lemma processPath_preserves_PreInv (st : PreloadState) (p : String)
    (h : PreInv st) : PreInv (processPath st p) := by
  by_cases hmem : p ∈ st.preload_queue
  · rw [processPath_of_mem st p hmem]
    exact h
  · rcases hg : st.cache.get p with ⟨os, c'⟩
    cases os with
    | some s =>
      have : processPath st p = { st with cache := c' } := by
        simp [processPath, hmem, hg]
      rw [this]
      exact h
    | none =>
      have hstep : processPath st p =
          { preload_queue := p :: st.preload_queue, cache := c',
            running := st.running ++ [p], submitted := st.submitted ++ [p] } := by
        simp [processPath, hmem, hg]
      rw [hstep]
      have hnotrun : p ∉ st.running := fun hr => hmem ((h.2.1 p).mp hr)
      refine ⟨?_, ?_, ?_⟩
      · intro q
        show (st.running ++ [p]).count q ≤ 1
        rw [List.count_append]
        by_cases hq : q = p
        · subst hq
          have hz : st.running.count q = 0 := List.count_eq_zero.mpr hnotrun
          simp [hz]
        · have hz : List.count q [p] = 0 :=
            List.count_eq_zero.mpr (fun hm => hq (List.mem_singleton.mp hm))
          have h1 := h.1 q
          omega
      · intro q
        show q ∈ st.running ++ [p] ↔ q ∈ p :: st.preload_queue
        simp only [List.mem_append, List.mem_singleton, List.mem_cons]
        rw [h.2.1 q]
        tauto
      · show (p :: st.preload_queue).Nodup
        exact List.nodup_cons.mpr ⟨hmem, h.2.2⟩

lemma preloadTaskComplete_preserves_PreInv (st : PreloadState) (p : String)
    (d : Option Surface) (h : PreInv st) :
    PreInv (preloadTaskComplete st p d) := by
  refine ⟨?_, ?_, ?_⟩
  · intro q
    rw [preloadTaskComplete_running]
    calc (st.running.erase p).count q ≤ st.running.count q :=
          (List.erase_sublist p st.running).count_le q
      _ ≤ 1 := h.1 q
  · intro q
    rw [preloadTaskComplete_running, preloadTaskComplete_queue]
    by_cases hq : q = p
    · subst hq
      constructor
      · intro hr
        have hc := List.count_erase_self q st.running
        have h1 := h.1 q
        have h2 : 1 ≤ (st.running.erase q).count q := List.one_le_count_iff.mpr hr
        omega
      · intro hqq
        exact absurd hqq (h.2.2.not_mem_erase)
    · rw [List.mem_erase_of_ne hq, List.mem_erase_of_ne hq]
      exact h.2.1 q
  · rw [preloadTaskComplete_queue]
    exact h.2.2.erase _

lemma foldl_processPath_preserves (paths : List String) :
    ∀ st : PreloadState, PreInv st → PreInv (paths.foldl processPath st) := by
  induction paths with
  | nil => intro st h; exact h
  | cons p rest ih =>
    intro st h
    exact ih (processPath st p) (processPath_preserves_PreInv st p h)

lemma preload_images_preserves_PreInv (st : PreloadState) (images : List String)
    (idx ahead behind : Nat) (h : PreInv st) :
    PreInv (preload_images st images idx ahead behind) := by
  unfold preload_images
  by_cases he : images.isEmpty
  · rw [if_pos he]; exact h
  · rw [if_neg he]
    exact foldl_processPath_preserves _ st h

lemma applyPreloadEvent_preserves_PreInv (st : PreloadState) (e : PreloadEvent)
    (h : PreInv st) : PreInv (applyPreloadEvent st e) := by
  cases e with
  | sched images idx ahead behind =>
    exact preload_images_preserves_PreInv st images idx ahead behind h
  | complete p d => exact preloadTaskComplete_preserves_PreInv st p d h

lemma runPreload_preserves_PreInv (evs : List PreloadEvent) :
    ∀ st : PreloadState, PreInv st → PreInv (runPreload st evs) := by
  induction evs with
  | nil => intro st h; exact h
  | cons e rest ih =>
    intro st h
    exact ih _ (applyPreloadEvent_preserves_PreInv st e h)

lemma PreInv_initPreload (c : ImageCache) : PreInv (initPreload c) := by
  refine ⟨?_, ?_, ?_⟩
  · intro p; simp [initPreload]
  · intro p; simp [initPreload]
  · simp [initPreload]

/-! ### Viewer lemmas -/

lemma applyZoomEvent_bounds (st : ViewerState) (e : ZoomEvent)
    (h1 : (1:ℚ)/10 ≤ st.zoom) (h2 : st.zoom ≤ 4) :
    (1:ℚ)/10 ≤ (applyZoomEvent st e).zoom ∧ (applyZoomEvent st e).zoom ≤ 4 := by
  have hz : (0:ℚ) ≤ st.zoom := le_trans (by norm_num) h1
  cases e with
  | wheel_up =>
    constructor
    · show (1:ℚ)/10 ≤ min 4 (st.zoom * (11/10))
      apply le_min
      · norm_num
      · calc (1:ℚ)/10 ≤ st.zoom := h1
          _ ≤ st.zoom * (11/10) := le_mul_of_one_le_right hz (by norm_num)
    · show min 4 (st.zoom * (11/10)) ≤ 4
      exact min_le_left _ _
  | wheel_down =>
    constructor
    · show (1:ℚ)/10 ≤ max (1/10) (st.zoom / (11/10))
      exact le_max_left _ _
    · show max ((1:ℚ)/10) (st.zoom / (11/10)) ≤ 4
      apply max_le
      · norm_num
      · calc st.zoom / (11/10) ≤ st.zoom := div_le_self hz (by norm_num)
          _ ≤ 4 := h2

lemma runZoomEvents_bounds (evs : List ZoomEvent) :
    ∀ st : ViewerState, (1:ℚ)/10 ≤ st.zoom → st.zoom ≤ 4 →
      (1:ℚ)/10 ≤ (runZoomEvents st evs).zoom
      ∧ (runZoomEvents st evs).zoom ≤ 4 := by
  induction evs with
  | nil => intro st h1 h2; exact ⟨h1, h2⟩
  | cons e rest ih =>
    intro st h1 h2
    obtain ⟨g1, g2⟩ := applyZoomEvent_bounds st e h1 h2
    exact ih (applyZoomEvent st e) g1 g2

/-! ### Oversized insertion and further cache lemmas -/

lemma evictLoop_drop (maxMem sz : Nat) (order : List String) :
    ∀ (cache : List (String × Surface)) (cur : Int),
      ∃ n, (evictLoop maxMem sz order cache cur).1 = order.drop n := by
  induction order with
  | nil => intro cache cur; exact ⟨0, rfl⟩
  | cons oldest rest ih =>
    intro cache cur
    by_cases hc : cur + (sz : Int) > (maxMem : Int)
    · cases hold : lookupKey oldest cache with
      | some old =>
        obtain ⟨n, hn⟩ := ih (eraseKey oldest cache)
          (cur - (get_surface_size old : Int))
        refine ⟨n + 1, ?_⟩
        rw [show evictLoop maxMem sz (oldest :: rest) cache cur
            = evictLoop maxMem sz rest (eraseKey oldest cache)
              (cur - (get_surface_size old : Int)) from by
          simp only [evictLoop, if_pos hc, hold]]
        simpa using hn
      | none =>
        obtain ⟨n, hn⟩ := ih cache cur
        refine ⟨n + 1, ?_⟩
        rw [show evictLoop maxMem sz (oldest :: rest) cache cur
            = evictLoop maxMem sz rest cache cur from by
          simp only [evictLoop, if_pos hc, hold]]
        simpa using hn
    · refine ⟨0, ?_⟩
      rw [show evictLoop maxMem sz (oldest :: rest) cache cur
          = (oldest :: rest, cache, cur) from by
        simp only [evictLoop, if_neg hc]]
      rfl

lemma put_oversized (c : ImageCache) (k : String) (s : Surface)
    (hInv : CacheInv c) (hBig : c.max_memory < get_surface_size s) :
    c.put k (some s) =
      { cache := [(k, s)]
        access_order := [k]
        max_memory := c.max_memory
        current_memory := (get_surface_size s : Int) } := by
  rcases hEv : evictLoop c.max_memory (get_surface_size s) c.access_order c.cache
    c.current_memory with ⟨o1, c1, m1⟩
  obtain ⟨g1, g2, _, _, _, g6⟩ :=
    evictLoop_spec c.max_memory (get_surface_size s) c.access_order c.cache
      c.current_memory o1 c1 m1 hEv hInv.1 (cacheInv_keys_iff hInv)
      hInv.2.2.2.1 hInv.2.2.2.2
  have ho1 : o1 = [] := by
    rcases g6 with hle | hnil
    · exfalso
      have hm1 : (0:Int) ≤ m1 := by
        rw [g1]
        exact_mod_cast Nat.zero_le _
      have hx : (c.max_memory : Int) < (get_surface_size s : Int) := by
        exact_mod_cast hBig
      linarith
    · exact hnil
  subst ho1
  have hc1 : c1 = [] := keysOf_empty_of_order_nil c1 g2
  subst hc1
  have hm1 : m1 = 0 := by simpa [totalFootprint] using g1
  subst hm1
  rw [put_some c k s [] [] 0 hEv,
    putAfterEvict_none c.max_memory (get_surface_size s) k s [] [] 0 rfl]
  simp [insertKey, eraseKey]

lemma cacheInv_init (mb : Nat) : CacheInv (ImageCache.init mb) := by
  refine ⟨rfl, ?_, ?_, ?_, ?_⟩ <;> simp [ImageCache.init, keysOf]

/-! ### Claim theorems -/

/-- C1, counterexample: the claimed invariant "sum of cached footprints is
at most the budget after every operation" fails as stated.  With a 1 MiB
budget, a single `Put` of a 1024 x 1024 surface (footprint 4 MiB) empties
the eviction deque and then inserts anyway, leaving the cache over
budget. -/
theorem c1_budget_counterexample :
    (ImageCache.init 1).max_memory
      < totalFootprint ((runOps (ImageCache.init 1)
          [CacheOp.put "big" (some ⟨1024, 1024⟩)]).cache) := by
  decide

/-- C1 (amended): for every sequence of `Put`/`Get` operations on a cache
built by `ImageCache.__init__` with byte budget `B = mb * 1024 * 1024`,
provided every `Put` carries a footprint of at most `B`, the sum of
footprints of all cached entries is at most `B` after every operation
returns. -/
theorem c1_sum_within_budget (mb : Nat) (ops : List CacheOp)
    (h : ∀ op ∈ ops, opWithinBudget (mb * 1024 * 1024) op) :
    totalFootprint (runOps (ImageCache.init mb) ops).cache
      ≤ mb * 1024 * 1024 := by
  have hops : ∀ op ∈ ops, opWithinBudget (ImageCache.init mb).max_memory op := h
  exact (runOps_inv_budget ops (ImageCache.init mb) (cacheInv_init mb)
    (by simp [ImageCache.init, totalFootprint]) hops).2.1

/-- C1, witness: the amended budget invariant at a concrete run. -/
theorem c1_sum_within_budget_witness :
    (∀ op ∈ [CacheOp.put "a" (some surf400)],
      opWithinBudget (1 * 1024 * 1024) op)
    ∧ totalFootprint (runOps (ImageCache.init 1)
        [CacheOp.put "a" (some surf400)]).cache ≤ 1 * 1024 * 1024 :=
  ⟨by decide, c1_sum_within_budget 1 [CacheOp.put "a" (some surf400)] (by decide)⟩

/-- C2: `put` evicts strictly from the least-recently-used end (the
surviving recency deque is always a suffix `drop n` of the old one, so
the evicted keys are exactly the first, least recently used, ones), and
in the spec's scenario - budget 1000, footprints 400, `Put(a)`, `Put(b)`,
`Get(a)`, `Put(c)` - exactly `b` is evicted, leaving {a, c} with total
memory 800 and recency order ["a", "c"]. -/
theorem c2_lru_eviction :
    (∀ (maxMem sz : Nat) (order : List String)
        (cache : List (String × Surface)) (cur : Int),
      ∃ n, (evictLoop maxMem sz order cache cur).1 = order.drop n)
    ∧ (runOps cacheB1000 scenarioOps).access_order = ["a", "c"]
    ∧ lookupKey "a" (runOps cacheB1000 scenarioOps).cache = some surf400
    ∧ lookupKey "c" (runOps cacheB1000 scenarioOps).cache = some surf400
    ∧ lookupKey "b" (runOps cacheB1000 scenarioOps).cache = none
    ∧ (runOps cacheB1000 scenarioOps).current_memory = 800 :=
  ⟨fun maxMem sz order => evictLoop_drop maxMem sz order,
    by decide, by decide, by decide, by decide, by decide⟩

/-- C3, counterexample: an oversized `Put` is not rejected.  On a
budget-1000 cache holding `b`, `Put("k", 16 x 16)` (footprint 1024 >
1000) evicts `b` and inserts `k`; a subsequent `Get("k")` returns the
surface rather than absent. -/
theorem c3_oversized_counterexample :
    ((cacheWithB.put "k" (some surfBig)).get "k").1 = some surfBig
    ∧ lookupKey "b" (cacheWithB.put "k" (some surfBig)).cache = none := by
  decide

/-- C3 (amended): `Put(k, image)` with `image.footprint > budget` on a
consistent cache evicts every entry and then inserts `k` anyway: the
cache afterwards holds exactly `k` with `current_memory` equal to the
oversized footprint (over budget), and a subsequent `Get(k)` returns
the image. -/
theorem c3_oversized_inserts (c : ImageCache) (k : String) (s : Surface)
    (hInv : CacheInv c) (hBig : c.max_memory < get_surface_size s) :
    (c.put k (some s)).cache = [(k, s)]
    ∧ (c.put k (some s)).access_order = [k]
    ∧ (c.put k (some s)).current_memory = (get_surface_size s : Int)
    ∧ ((c.put k (some s)).get k).1 = some s := by
  have h := put_oversized c k s hInv hBig
  rw [h]
  refine ⟨rfl, rfl, rfl, ?_⟩
  simp [ImageCache.get, lookupKey]

/-- C3, witness: the amended oversized-insertion behaviour at a concrete
cache. -/
theorem c3_oversized_inserts_witness :
    CacheInv cacheWithB
    ∧ cacheWithB.max_memory < get_surface_size surfBig
    ∧ ((cacheWithB.put "k" (some surfBig)).get "k").1 = some surfBig :=
  ⟨by decide, by decide,
    (c3_oversized_inserts cacheWithB "k" surfBig (by decide) (by decide)).2.2.2⟩

/-- C4: the cache clear performed when art mode is toggled
(`cache.cache.clear()`, main.py line 439) empties only the mapping:
after `Put("a", 400 bytes)` and a toggle, the mapping's key set is empty
while the recency deque still holds `"a"` and `current_memory` is still
400 - the claimed key-set equality is broken by this operation. -/
theorem c4_art_clear_breaks_key_sets :
    keysOf (toggleArtMode (initViewer 0)
      (cacheB1000.put "a" (some surf400))).2.cache = []
    ∧ (toggleArtMode (initViewer 0)
        (cacheB1000.put "a" (some surf400))).2.access_order = ["a"]
    ∧ (toggleArtMode (initViewer 0)
        (cacheB1000.put "a" (some surf400))).2.current_memory = 400 := by
  decide

/-- C5: at most one outstanding decode task per key.  A `preload_images`
step naming a key already in the in-flight set is a no-op; after any
sequence of schedule and completion events from a fresh preloader every
key has at most one running task; and the concrete double-schedule of
the same neighbours submits each key exactly once. -/
theorem c5_dedup :
    (∀ (st : PreloadState) (p : String),
      p ∈ st.preload_queue → processPath st p = st)
    ∧ (∀ (c : ImageCache) (evs : List PreloadEvent) (p : String),
        (runPreload (initPreload c) evs).running.count p ≤ 1)
    ∧ (runPreload (initPreload cacheB1000) schedTwice).running = ["b", "c"]
    ∧ (runPreload (initPreload cacheB1000) schedTwice).submitted = ["b", "c"] := by
  refine ⟨processPath_of_mem, ?_, by decide, by decide⟩
  intro c evs p
  exact (runPreload_preserves_PreInv evs (initPreload c)
    (PreInv_initPreload c)).1 p

/-- C5, witness: the no-op branch and the count bound at a concrete
state. -/
theorem c5_dedup_witness :
    ("b" ∈ (runPreload (initPreload cacheB1000) schedTwice).preload_queue)
    ∧ processPath (runPreload (initPreload cacheB1000) schedTwice) "b"
        = runPreload (initPreload cacheB1000) schedTwice
    ∧ (runPreload (initPreload cacheB1000) schedTwice).running.count "b" ≤ 1 :=
  ⟨by decide, c5_dedup.1 _ "b" (by decide),
    c5_dedup.2.1 cacheB1000 schedTwice "b"⟩

/-- C6, counterexample: with mosaic mode on, the slideshow still
auto-advances - the per-frame deadline check (main.py lines 398-402) is
not guarded by `mosaic_mode`.  In a mosaic-mode state with the slideshow
active and the deadline passed, the tick changes `current_index`. -/
theorem c6_mosaic_tick_counterexample :
    mosaicViewer.mosaic_mode = true
    ∧ mosaicViewer.slideshow_active = true
    ∧ (slideshowTick mosaicViewer 4000 3).current_index
        ≠ mosaicViewer.current_index := by
  decide

/-- C6 (amended): whenever the slideshow is active and the deadline has
passed, the per-frame check advances `current_index` modulo `n` and
stamps the time, regardless of `mosaic_mode` - mosaic mode does not
suppress the auto-advance. -/
theorem c6_tick_advances_regardless_of_mosaic (st : ViewerState) (now : Int)
    (n : Nat) (hact : st.slideshow_active = true)
    (hdl : now - st.last_slide_time > st.slideshow_delay) :
    (slideshowTick st now n).current_index = (st.current_index + 1) % n
    ∧ (slideshowTick st now n).last_slide_time = now := by
  unfold slideshowTick
  rw [if_pos ⟨hact, hdl⟩]
  exact ⟨rfl, rfl⟩

/-- C6, witness: the amended tick behaviour at the concrete mosaic
state. -/
theorem c6_tick_witness :
    mosaicViewer.slideshow_active = true
    ∧ ((4000 : Int) - mosaicViewer.last_slide_time
        > mosaicViewer.slideshow_delay)
    ∧ (slideshowTick mosaicViewer 4000 3).current_index
        = (mosaicViewer.current_index + 1) % 3 :=
  ⟨by decide, by decide,
    (c6_tick_advances_regardless_of_mosaic mosaicViewer 4000 3
      (by decide) (by decide)).1⟩

/-- C7, counterexample: `ToggleSlideshow` does not set the deadline to
`now + delay`.  Activating at time 10000 on the initial state leaves
`last_slide_time` at 0, so the tick at time 10001 (well before the
claimed earliest advance 13000) already advances the index. -/
theorem c7_toggle_counterexample :
    (toggleSlideshow (initViewer 0)).slideshow_active = true
    ∧ (toggleSlideshow (initViewer 0)).last_slide_time = 0
    ∧ (slideshowTick (toggleSlideshow (initViewer 0)) 10001 3).current_index
        = 1 := by
  decide

/-- C7 (amended): `ToggleSlideshow` only flips `slideshow_active` and
leaves `last_slide_time` untouched, so after activation the first tick
whose time is more than one delay past the stale `last_slide_time`
auto-advances immediately - possibly far earlier than one delay after
activation. -/
theorem c7_toggle_no_timer_reset (st : ViewerState) (now : Int) (n : Nat)
    (hact : st.slideshow_active = false)
    (hdl : now - st.last_slide_time > st.slideshow_delay) :
    (toggleSlideshow st).slideshow_active = true
    ∧ (toggleSlideshow st).last_slide_time = st.last_slide_time
    ∧ (slideshowTick (toggleSlideshow st) now n).current_index
        = (st.current_index + 1) % n := by
  have h1 : (toggleSlideshow st).slideshow_active = true := by
    simp [toggleSlideshow, hact]
  refine ⟨h1, rfl, ?_⟩
  unfold slideshowTick
  rw [if_pos ⟨h1, hdl⟩]
  rfl

/-- C7, witness: the amended toggle behaviour at the initial state. -/
theorem c7_toggle_witness :
    (initViewer 0).slideshow_active = false
    ∧ ((10001 : Int) - (initViewer 0).last_slide_time
        > (initViewer 0).slideshow_delay)
    ∧ (slideshowTick (toggleSlideshow (initViewer 0)) 10001 3).current_index
        = ((initViewer 0).current_index + 1) % 3 :=
  ⟨rfl, by decide,
    (c7_toggle_no_timer_reset (initViewer 0) 10001 3 rfl (by decide)).2.2⟩

/-- C8, counterexample: `ToggleMosaicMode` does not reset the view.
Toggling mosaic on from a state zoomed to 2.0 and panned to (5, 3)
enters mosaic mode with zoom still 2.0 and pan still (5, 3). -/
theorem c8_toggle_mosaic_counterexample :
    (toggleMosaicMode zoomedViewer).mosaic_mode = true
    ∧ (toggleMosaicMode zoomedViewer).zoom ≠ 1
    ∧ (toggleMosaicMode zoomedViewer).pan_x ≠ 0
    ∧ (toggleMosaicMode zoomedViewer).pan_y ≠ 0 := by
  decide

/-- C8 (amended): `ToggleMosaicMode` flips the `mosaic_mode` flag and
changes nothing else: zoom and the pan offsets are left unchanged (only
the separate `R`-key handler resets them). -/
theorem c8_toggle_mosaic_flips_only (st : ViewerState) :
    (toggleMosaicMode st).mosaic_mode = !st.mosaic_mode
    ∧ (toggleMosaicMode st).zoom = st.zoom
    ∧ (toggleMosaicMode st).pan_x = st.pan_x
    ∧ (toggleMosaicMode st).pan_y = st.pan_y :=
  ⟨rfl, rfl, rfl, rfl⟩

/-- C9: for every sequence of mouse-wheel zoom events starting from the
initial viewport (zoom 1.0), the zoom stays within [0.1, 4.0] after
every event. -/
theorem c9_zoom_bounds (t0 : Int) (evs : List ZoomEvent) :
    (1:ℚ)/10 ≤ (runZoomEvents (initViewer t0) evs).zoom
    ∧ (runZoomEvents (initViewer t0) evs).zoom ≤ 4 :=
  runZoomEvents_bounds evs (initViewer t0) (by norm_num [initViewer])
    (by norm_num [initViewer])

/-- C10: `preload_images` is not read-only on the cache.  Processing a
scheduled path that is not in flight and is already cached goes through
`ImageCache.get`, which moves the key to the most-recently-used end of
the recency deque; the queue, the running tasks, the submission log and
the cache mapping are all unchanged - no decode task is submitted. -/
theorem c10_preload_touches_recency (st : PreloadState) (p : String)
    (s : Surface) (h1 : p ∉ st.preload_queue)
    (h2 : lookupKey p st.cache.cache = some s) :
    processPath st p
      = { st with cache :=
          { st.cache with
            access_order := (st.cache.access_order.erase p) ++ [p] } } := by
  have hg : st.cache.get p
      = (some s, { st.cache with
          access_order := (st.cache.access_order.erase p) ++ [p] }) := by
    unfold ImageCache.get
    rw [h2]
  simp [processPath, h1, hg]

/-- C10, witness: the recency touch at a concrete preloader whose cache
holds `"b"`. -/
theorem c10_preload_touches_recency_witness :
    ("b" ∉ (initPreload cacheWithB).preload_queue)
    ∧ lookupKey "b" (initPreload cacheWithB).cache.cache = some surf400
    ∧ processPath (initPreload cacheWithB) "b"
        = { initPreload cacheWithB with cache :=
            { (initPreload cacheWithB).cache with
              access_order :=
                (((initPreload cacheWithB).cache.access_order).erase "b")
                  ++ ["b"] } } :=
  ⟨by decide, by decide,
    c10_preload_touches_recency (initPreload cacheWithB) "b" surf400
      (by decide) (by decide)⟩
